import Mathlib

/-!
Verification of the whoosh query-parser plugin filters
(`src/whoosh/qparser/plugins.py`).

The syntax-node data model (`whoosh/qparser/syntax.py`) is not part of the
sources; where a plugin filter relies on it (node capabilities, `set_boost`,
`set_fieldname`, `Operator.replace_self`), the corresponding definition below
is modelled from the specification and marked `Modelled from the spec`.
Booleans, strings and rationals stand for the Python values; Python floats
are modelled as rationals.
-/

namespace WQ

/-- Group-node variants (`syntax.AndGroup`, `OrGroup`, `NotGroup`,
`AndNotGroup`, `AndMaybeGroup`, `RequireGroup`). -/
inductive GType where
  | andG
  | orG
  | notG
  | andNotG
  | andMaybeG
  | requireG
deriving DecidableEq, Repr

/-- Operator arity: `syntax.PrefixOperator` vs `syntax.InfixOperator`. -/
inductive OpType where
  | preOp
  | infOp
deriving DecidableEq, Repr

/-- The data an `OperatorsPlugin.OpTagger` carries and stores on the operator
nodes it creates: the operator class, the bound group type and the
associativity (`OpTagger.__init__`). -/
structure OpSpec where
  optype : OpType
  gtype : GType
  leftassoc : Bool
deriving DecidableEq, Repr

/-- Syntax nodes, covering the node kinds the plugin filters manipulate:
`WordNode`, `Whitespace`, `FieldnameNode` (name, original matched text),
`BoostPlugin.BoostNode` (original text, numeric value),
`GtLtPlugin.GtLtNode`, `PlusMinusPlugin.Plus`/`Minus`,
`GroupPlugin.OpenBracket`/`CloseBracket`, operator nodes, `RangeNode`
and group nodes. Text nodes carry an optional field name and a boost
(default 1). Character offsets are not modelled. -/
inductive Node where
  | word (text : String) (fieldname : Option String) (boost : ℚ)
  | ws
  | fname (name : String) (original : String)
  | boostm (original : String) (val : ℚ)
  | gtlt (rel : String)
  | plus
  | minus
  | openB
  | closeB
  | opm (original : String) (spec : OpSpec)
  | range (start : Option String) (stop : Option String)
      (startexcl : Bool) (endexcl : Bool)
      (fieldname : Option String) (boost : ℚ)
  | group (gtype : GType) (children : List Node)
      (fieldname : Option String) (boost : ℚ)

/-- Modelled from the spec: the `has_text` capability of the missing node
model; only plain text nodes carry literal text, markers and groups do not. -/
def Node.has_text : Node → Bool
  | .word .. => true
  | _ => false

/-- Modelled from the spec: the `has_boost` capability; text nodes, range
nodes and groups carry a boost, marker nodes do not. -/
def Node.has_boost : Node → Bool
  | .word .. => true
  | .range .. => true
  | .group .. => true
  | _ => false

/-- Modelled from the spec: the `has_fieldname` capability; text nodes,
range nodes and groups carry a field-name association, markers do not. -/
def Node.has_fieldname : Node → Bool
  | .word .. => true
  | .range .. => true
  | .group .. => true
  | _ => false

/-- `SyntaxNode.is_ws`: true only for whitespace marker nodes. -/
def Node.is_ws : Node → Bool
  | .ws => true
  | _ => false

/-- Whether a node is a `GroupNode`. -/
def Node.isGroup : Node → Bool
  | .group .. => true
  | _ => false

/-- Whether a node is an operator marker (`syntax.Operator`). -/
def Node.isOp : Node → Bool
  | .opm .. => true
  | _ => false

/-- Whether a node is a `FieldnameNode` marker. -/
def Node.isFname : Node → Bool
  | .fname .. => true
  | _ => false

/-- Whether a node is a `GtLtPlugin.GtLtNode` marker. -/
def Node.isGtlt : Node → Bool
  | .gtlt .. => true
  | _ => false

/-- Whether a node is a `BoostPlugin.BoostNode` marker. -/
def Node.isBoostm : Node → Bool
  | .boostm .. => true
  | _ => false

/-- Whether a node is an open- or close-bracket marker of `GroupPlugin`. -/
def Node.isBracket : Node → Bool
  | .openB => true
  | .closeB => true
  | _ => false

/-- The `text` attribute of a text node (callers guard with `has_text`). -/
def Node.textOf : Node → String
  | .word t _ _ => t
  | _ => ""

/-- The `fieldname` attribute of a field-capable node. -/
def Node.fieldnameOf : Node → Option String
  | .word _ f _ => f
  | .range _ _ _ _ f _ => f
  | .group _ _ f _ => f
  | _ => none

/-- The `boost` attribute of a boost-capable node. -/
def Node.boostOf : Node → ℚ
  | .word _ _ b => b
  | .range _ _ _ _ _ b => b
  | .group _ _ _ b => b
  | _ => 1

/-- The child list of a group node. -/
def Node.children : Node → List Node
  | .group _ ch _ _ => ch
  | _ => []

/-- Modelled from the spec: `SyntaxNode.set_boost` of the missing node
model. The spec states that boost values compose multiplicatively and that
the boost-apply filter "multiplies that node's boost by the marker's
numeric value", so applying a boost `v` multiplies the stored boost. -/
def Node.set_boost (v : ℚ) : Node → Node
  | .word t f b => .word t f (b * v)
  | .range s e se ee f b => .range s e se ee f (b * v)
  | .group gt ch f b => .group gt ch f (b * v)
  | n => n

mutual

/-- Modelled from the spec: `SyntaxNode.set_fieldname` of the missing node
model. With `override = false` the name is assigned only when the node does
not already carry one; a group additionally propagates the assignment to
its children ("a field-name association that filters may propagate to
children"). -/
def Node.set_fieldname (nm : String) (override : Bool) : Node → Node
  | .word t f b => .word t (if override || f.isNone then some nm else f) b
  | .range s e se ee f b =>
      .range s e se ee (if override || f.isNone then some nm else f) b
  | .group gt ch f b =>
      .group gt (setFieldnameList nm override ch)
        (if override || f.isNone then some nm else f) b
  | n => n

/-- Children traversal of `set_fieldname` over a group's child list. -/
def setFieldnameList (nm : String) (override : Bool) : List Node → List Node
  | [] => []
  | n :: rest => Node.set_fieldname nm override n :: setFieldnameList nm override rest

end

/-- The parser context a filter receives: the schema, when present, as the
list of known field names. -/
structure Parser where
  schema : Option (List String)

/-! ## WhitespacePlugin -/

/-- Priority at which `WhitespacePlugin.remove_whitespace` is registered
(`WhitespacePlugin.filters`). -/
def removeWhitespacePriority : Nat := 500

mutual

/-- `WhitespacePlugin.remove_whitespace`: rebuilds the group, recursing into
subgroups and dropping whitespace nodes. -/
def removeWhitespace : Node → Node
  | .group gt ch f b => .group gt (removeWhitespaceList ch) f b
  | n => n

/-- The child-list traversal of `remove_whitespace`. -/
def removeWhitespaceList : List Node → List Node
  | [] => []
  | n :: rest =>
    match n with
    | .group gt ch f b => removeWhitespace (.group gt ch f b) :: removeWhitespaceList rest
    | _ =>
      if n.is_ws then removeWhitespaceList rest
      else n :: removeWhitespaceList rest

end

mutual

/-- A tree contains no whitespace nodes. -/
def noWsNode : Node → Bool
  | .ws => false
  | .group _ ch _ _ => noWsList ch
  | _ => true

/-- A node list (with its subtrees) contains no whitespace nodes. -/
def noWsList : List Node → Bool
  | [] => true
  | n :: rest => noWsNode n && noWsList rest

end

/-! ## GtLtPlugin.make_range -/

/-- `GtLtPlugin.make_range`: translate a relational symbol and the operand
node into a `RangeNode`. A symbol outside the six recognized ones leaves
the local variable unbound in Python (an error), modelled by `none`. -/
def makeRange (node : Node) (rel : String) : Option Node :=
  let text := node.textOf
  if rel = "<" then some (.range none (some text) false true none 1)
  else if rel = ">" then some (.range (some text) none true false none 1)
  else if rel = "<=" || rel = "=<" then some (.range none (some text) false false none 1)
  else if rel = ">=" || rel = "=>" then some (.range (some text) none false false none 1)
  else none

/-! ## BoostPlugin -/

/-- Priority at which `BoostPlugin.do_boost` is registered
(`BoostPlugin.filters`). -/
def doBoostPriority : Nat := 700

/-- Priority at which `BoostPlugin.clean_boost` is registered
(`BoostPlugin.filters`). -/
def cleanBoostPriority : Nat := 0

mutual

/-- The loop body of `BoostPlugin.do_boost`: `acc` is the new group's
children, most recently appended first (so that `acc.head?` is Python's
`newgroup[-1]`). A group child is recursed into first; a boost marker is
applied to the previous emitted node when that node can carry a boost, and
is demoted to a plain word otherwise. -/
def doBoostList (acc : List Node) : List Node → List Node
  | [] => acc.reverse
  | n :: rest =>
    match n with
    | .group gt ch f b => doBoostList (doBoost (.group gt ch f b) :: acc) rest
    | .boostm o v =>
      match acc with
      | prev :: accTail =>
        if prev.has_boost then doBoostList (prev.set_boost v :: accTail) rest
        else doBoostList (Node.word o none 1 :: acc) rest
      | [] => doBoostList (Node.word o none 1 :: acc) rest
    | _ => doBoostList (n :: acc) rest

/-- `BoostPlugin.do_boost`: rebuild the group applying boost markers to the
previous node. -/
def doBoost : Node → Node
  | .group gt ch f b => .group gt (doBoostList [] ch) f b
  | n => n

end

/-! ## GroupPlugin -/

/-- The stack walk of `GroupPlugin.do_groups`. The stack holds the child
lists of the in-progress groups, top level first (so the base group is the
last element); every finished level becomes a fresh `parser.group()` of the
parser's default group type `gt` with boost 1 and no field name. -/
def doGroupsLoop (gt : GType) : List Node → List (List Node) → List (List Node)
  | [], stack => stack
  | .openB :: rest, stack => doGroupsLoop gt rest ([] :: stack)
  | .closeB :: rest, stack =>
    match stack with
    | top :: nxt :: more =>
        doGroupsLoop gt rest ((nxt ++ [Node.group gt top none 1]) :: more)
    | _ => doGroupsLoop gt rest stack
  | n :: rest, stack =>
    match stack with
    | top :: more => doGroupsLoop gt rest ((top ++ [n]) :: more)
    | [] => doGroupsLoop gt rest [[n]]

/-- `GroupPlugin.do_groups`: organize a flat node sequence into a hierarchy
using the bracket markers. Leftover open levels are appended, in stack
order, to the base group; a top-level group with a single group child
collapses onto that child, transferring the outer boost (which is the fresh
base group's boost, 1). -/
def doGroups (gt : GType) (g : Node) : Node :=
  match g with
  | .group _ ch _ _ =>
    let stack := doGroupsLoop gt ch [[]]
    let topCh := stack.reverse.flatten
    match topCh with
    | [Node.group gt2 ch2 f2 _] => Node.group gt2 ch2 f2 1
    | _ => Node.group gt topCh none 1
  | n => n

/-! ## FieldsPlugin -/

/-- Priority at which `FieldsPlugin.do_fieldnames` is registered
(`FieldsPlugin.filters`). -/
def doFieldnamesPriority : Nat := 100

/-- Whether a node is a `FieldnameNode` whose field name is absent from the
schema (`isinstance(node, fnclass) and node.fieldname not in schema`). -/
def isUnknownF (sch : List String) : Node → Bool
  | .fname nm _ => !(sch.contains nm)
  | _ => false

/-- The `original` matched text of a `FieldnameNode` marker. -/
def origOf : Node → String
  | .fname _ o => o
  | _ => ""

/-- The first phase of `FieldsPlugin.do_fieldnames` (run when
`remove_unknown` is set and a schema is present): an unknown field marker's
original text becomes the pending text `txt` (discarding any text already
pending), pending text is merged into the next text node or emitted as a
word before the next non-text node, and leftover pending text is emitted as
a final word. Python's falsy empty string is the "no pending text" state.
`setTextPre` is the merge step `node.text = text + node.text`. -/
def setTextPre (txt : String) : Node → Node
  | .word tn fn bn => .word (txt ++ tn) fn bn
  | n => n

/-- The unknown-field phase of `do_fieldnames`; see `setTextPre` above for
the merge step. -/
def fieldsPhase1 (sch : List String) : List Node → String → List Node
  | [], txt => if txt = "" then [] else [Node.word txt none 1]
  | n :: rest, txt =>
    if isUnknownF sch n then fieldsPhase1 sch rest (origOf n)
    else if txt = "" then n :: fieldsPhase1 sch rest ""
    else if n.has_text then setTextPre txt n :: fieldsPhase1 sch rest ""
    else Node.word txt none 1 :: n :: fieldsPhase1 sch rest ""

/-- The demotion of a leftover `FieldnameNode` in the backward scan of
`do_fieldnames`: `node = syntax.WordNode(node.original)`. -/
def fieldsDemote : Node → Node
  | .fname _ o => Node.word o none 1
  | n => n

/-- The backward scan of `FieldsPlugin.do_fieldnames`, expressed on the
reversed child list (so the head is the last node, and Python's
`group[i - 1]` is the head of `rest`): a leftover field marker is demoted
to a word with its original text; a non-whitespace node preceded by a field
marker receives that marker's name (without override) and consumes the
marker. Groups have already been recursed into at this point. -/
def fieldsPhase2Rev : List Node → List Node
  | [] => []
  | n :: .fname nm o :: rest2 =>
    let node := fieldsDemote n
    if node.is_ws then node :: fieldsPhase2Rev (.fname nm o :: rest2)
    else node.set_fieldname nm false :: fieldsPhase2Rev rest2
  | n :: rest => fieldsDemote n :: fieldsPhase2Rev rest

/-- The backward scan of `do_fieldnames` on a child list in source order. -/
def fieldsPhase2 (l : List Node) : List Node :=
  (fieldsPhase2Rev l.reverse).reverse

mutual

/-- `FieldsPlugin.do_fieldnames`. In the Python code the recursion into
subgroups happens inside the backward scan; because the unknown-field phase
passes group nodes through untouched and the backward scan inspects only
the head constructor of its nodes, recursing into subgroups first, then
running the unknown-field phase and the flat backward scan, computes the
same tree, and is how the filter is organized here. -/
def doFieldnames (rn : Bool) (p : Parser) : Node → Node
  | .group gt ch f b =>
    let ch0 := dfnList rn p ch
    let ch1 := if rn && p.schema.isSome then fieldsPhase1 (p.schema.getD []) ch0 "" else ch0
    .group gt (fieldsPhase2 ch1) f b
  | n => n

/-- Recursion of `do_fieldnames` into the group children of a child list. -/
def dfnList (rn : Bool) (p : Parser) : List Node → List Node
  | [] => []
  | n :: rest =>
    (match n with
      | .group gt ch f b => doFieldnames rn p (.group gt ch f b)
      | _ => n) :: dfnList rn p rest

end

/-! ## OperatorsPlugin -/

/-- Priority at which `OperatorsPlugin.do_operators` is registered
(`OperatorsPlugin.filters`). -/
def doOperatorsPriority : Nat := 600

/-- The default operator registration of `OperatorsPlugin.__init__`: the
list of `(OpTagger, priority)` pairs appended for `Not`, `And`, `Or`,
`AndNot`, `AndMaybe`, `Require`, in this order (the integer is the tagging
priority, which `do_operators` ignores). -/
def defaultOps : List (OpSpec × Int) :=
  [(⟨.preOp, .notG, true⟩, 0),
   (⟨.infOp, .andG, true⟩, 0),
   (⟨.infOp, .orG, true⟩, 0),
   (⟨.infOp, .andNotG, true⟩, -5),
   (⟨.infOp, .andMaybeG, true⟩, -5),
   (⟨.infOp, .requireG, true⟩, 0)]

/-- Modelled from the spec: whether a group type merges with an adjacent
operand that is already a group of the same type ("merging into the same
group-type ... to support chained flattening"). The spec's associativity
example requires `AndNot` chains to nest rather than flatten, so only the
plain conjunction and disjunction groups merge. -/
def GType.merging : GType → Bool
  | .andG => true
  | .orG => true
  | _ => false

/-- The left-to-right scan of `do_operators` for one left-associative
operator kind, combined with the spec-modelled `Operator.replace_self`
(`syntax.py` is not among the sources): a matching marker
(`isinstance(t, optype) and t.grouptype is gtype`) and its two neighbour
operands become a new group of the bound type, the right operand is instead
appended into the left operand when that operand is already a mergeable
group of the bound type, a prefix marker consumes its single following
operand, and a marker with a missing operand or one adjacent to another
operator marker is left unconsumed. `acc` holds the already-processed
output, most recent first. -/
def leftPassF (o : OpSpec) : Nat → List Node → List Node → List Node
  | 0, acc, l => acc.reverse ++ l
  | _ + 1, acc, [] => acc.reverse
  | fuel + 1, acc, t :: rest =>
    match t with
    | .opm orig s =>
      if s.optype = o.optype ∧ s.gtype = o.gtype then
        match o.optype with
        | .preOp =>
          match rest with
          | r :: rest2 =>
            if r.isOp then leftPassF o fuel (Node.opm orig s :: acc) (r :: rest2)
            else leftPassF o fuel (Node.group o.gtype [r] none 1 :: acc) rest2
          | [] => leftPassF o fuel (Node.opm orig s :: acc) []
        | .infOp =>
          match acc, rest with
          | l :: accTail, r :: rest2 =>
            if l.isOp || r.isOp then
              leftPassF o fuel (Node.opm orig s :: l :: accTail) (r :: rest2)
            else
              match l with
              | .group gt2 ch2 f2 b2 =>
                if gt2 = o.gtype ∧ gt2.merging = true then
                  leftPassF o fuel (Node.group gt2 (ch2 ++ [r]) f2 b2 :: accTail) rest2
                else
                  leftPassF o fuel (Node.group o.gtype [l, r] none 1 :: accTail) rest2
              | _ => leftPassF o fuel (Node.group o.gtype [l, r] none 1 :: accTail) rest2
          | [], rr => leftPassF o fuel (Node.opm orig s :: acc) rr
          | aa, [] => leftPassF o fuel (Node.opm orig s :: aa) []
      else leftPassF o fuel (t :: acc) rest
    | _ => leftPassF o fuel (t :: acc) rest

/-- The scan over a child list; every step consumes at least one input
node, so the input length bounds the recursion depth and the fuel-exhausted
case is unreachable. -/
def leftPass (o : OpSpec) (acc l : List Node) : List Node :=
  leftPassF o (l.length + 1) acc l

/-- The right-to-left scan of `do_operators` for a right-associative
operator kind, on the reversed child list (`done` holds the processed
right-hand part in source order). The matching condition checks only the
operator class (`isinstance(t, optype)`), as in the source, and the
replacement uses the marker's own bound group type; merging inserts the
left operand at the front of a mergeable right operand of the bound
type. -/
def rightPassF (o : OpSpec) : Nat → List Node → List Node → List Node
  | 0, l, done => l.reverse ++ done
  | _ + 1, [], done => done
  | fuel + 1, t :: restRev, done =>
    match t with
    | .opm orig s =>
      if s.optype = o.optype then
        match s.optype with
        | .preOp =>
          match done with
          | r :: doneTail =>
            if r.isOp then rightPassF o fuel restRev (Node.opm orig s :: r :: doneTail)
            else rightPassF o fuel restRev (Node.group s.gtype [r] none 1 :: doneTail)
          | [] => rightPassF o fuel restRev [Node.opm orig s]
        | .infOp =>
          match restRev, done with
          | l :: restRev2, r :: doneTail =>
            if l.isOp || r.isOp then
              rightPassF o fuel (l :: restRev2) (Node.opm orig s :: r :: doneTail)
            else
              match r with
              | .group gt2 ch2 f2 b2 =>
                if gt2 = s.gtype ∧ gt2.merging = true then
                  rightPassF o fuel restRev2 (Node.group gt2 (l :: ch2) f2 b2 :: doneTail)
                else
                  rightPassF o fuel restRev2 (Node.group s.gtype [l, r] none 1 :: doneTail)
              | _ => rightPassF o fuel restRev2 (Node.group s.gtype [l, r] none 1 :: doneTail)
          | [], dd => rightPassF o fuel [] (Node.opm orig s :: dd)
          | rr, [] => rightPassF o fuel rr [Node.opm orig s]
      else rightPassF o fuel restRev (t :: done)
    | _ => rightPassF o fuel restRev (t :: done)

/-- The right-to-left scan on a reversed child list; the input length
bounds the recursion depth (each step consumes at least one node), so the
fuel-exhausted case is unreachable. -/
def rightPass (o : OpSpec) (restRev done : List Node) : List Node :=
  rightPassF o (restRev.length + 1) restRev done

mutual

/-- The total number of nodes in a tree (used as recursion fuel for
`do_operators`, whose passes rebuild the child list before recursing). -/
def sizeN : Node → Nat
  | .group _ ch _ _ => 1 + sizeL ch
  | _ => 1

/-- Total node count of a node list. -/
def sizeL : List Node → Nat
  | [] => 0
  | n :: rest => sizeN n + sizeL rest

end

/-- `OperatorsPlugin.do_operators` with explicit recursion fuel: for each
registered operator kind in registration order, run the associativity-
directed scan over the current child list, then recurse into the group
children of the result. -/
def doOperatorsAux (ops : List (OpSpec × Int)) : Nat → Node → Node
  | 0, g => g
  | fuel + 1, .group gt ch f b =>
    let ch1 := ops.foldl
      (fun cur p => if p.1.leftassoc then leftPass p.1 [] cur
                    else rightPass p.1 cur.reverse []) ch
    let ch2 := ch1.map (fun n =>
      match n with
      | .group gt2 c2 f2 b2 => doOperatorsAux ops fuel (.group gt2 c2 f2 b2)
      | m => m)
    .group gt ch2 f b
  | _ + 1, n => n

/-- `OperatorsPlugin.do_operators`; the tree size bounds the recursion
depth reachable from the input. -/
def doOperators (ops : List (OpSpec × Int)) (g : Node) : Node :=
  doOperatorsAux ops (sizeN g) g

/-! ## PlusMinusPlugin -/

/-- Priority at which `PlusMinusPlugin.do_plusminus` is registered
(`PlusMinusPlugin.filters`). -/
def doPlusminusPriority : Nat := 510

/-- The destination selector of `do_plusminus` (Python's `next`
variable). -/
inductive PMSel where
  | req
  | opt
  | ban
deriving DecidableEq, Repr

/-- The single pass of `PlusMinusPlugin.do_plusminus`: a plus marker makes
the following operand required, a minus marker makes it banned, and the
selector resets to optional after every consumed operand. The three
accumulators are the children of the `required`, `optional` and `banned`
groups, appended at the end as in the source. -/
def pmLoop : List Node → List Node → List Node → List Node → PMSel →
    List Node × List Node × List Node
  | [], r, o, b, _ => (r, o, b)
  | .plus :: rest, r, o, b, _ => pmLoop rest r o b .req
  | .minus :: rest, r, o, b, _ => pmLoop rest r o b .ban
  | n :: rest, r, o, b, sel =>
    match sel with
    | .req => pmLoop rest (r ++ [n]) o b .opt
    | .opt => pmLoop rest r (o ++ [n]) b .opt
    | .ban => pmLoop rest r o (b ++ [n]) .opt

/-- The final shape built by `do_plusminus` from the three buckets:
`AndMaybe(required, optional)` when required operands exist, wrapped
`AndNot(..., banned)` when banned operands exist. -/
def pmShape (r o b : List Node) : Node :=
  let optG := Node.group .orG o none 1
  let g1 :=
    if r.isEmpty then optG
    else Node.group .andMaybeG [Node.group .andG r none 1, optG] none 1
  if b.isEmpty then g1
  else Node.group .andNotG [g1, Node.group .orG b none 1] none 1

/-- `PlusMinusPlugin.do_plusminus`. -/
def doPlusminus (g : Node) : Node :=
  match g with
  | .group _ ch _ _ =>
    let t := pmLoop ch [] [] [] .opt
    pmShape t.1 t.2.1 t.2.2
  | n => n

/-- The buckets of `do_plusminus` described directly by the spec's words:
each operand goes to the bucket named by the most recently seen plus/minus
marker, and the selection resets to optional after each operand. -/
def pmBucketsSel : PMSel → List Node → List Node × List Node × List Node
  | _, [] => ([], [], [])
  | _, .plus :: rest => pmBucketsSel .req rest
  | _, .minus :: rest => pmBucketsSel .ban rest
  | sel, n :: rest =>
    let t := pmBucketsSel .opt rest
    match sel with
    | .req => (n :: t.1, t.2.1, t.2.2)
    | .opt => (t.1, n :: t.2.1, t.2.2)
    | .ban => (t.1, t.2.1, n :: t.2.2)

/-! ## GtLtPlugin -/

/-- Priority at which `GtLtPlugin.do_gtlt` is registered
(`GtLtPlugin.filters`). -/
def doGtltPriority : Nat := 99

/-- The scan of `GtLtPlugin.do_gtlt`: `acc` is the new group's children,
most recently appended first (Python's `newgroup`, with `acc.head?` being
`newgroup[-1]`). A comparison marker that is the last node is dropped;
otherwise the previously emitted node is read — an `IndexError` when
nothing has been emitted yet, modelled as `Except.error ()` — and when it
is a field marker and the following node carries text, the marker and the
following node fuse into the `make_range` result; in every other case the
marker is dropped. An unrecognized relational symbol makes `make_range`
fail (`none`), also an error. -/
def gtltLoopF : Nat → List Node → List Node → Except Unit (List Node)
  | 0, _, _ => .error ()
  | _ + 1, [], acc => .ok acc.reverse
  | fuel + 1, n :: rest, acc =>
    match n with
    | .gtlt rel =>
      match rest with
      | [] => gtltLoopF fuel [] acc
      | nxt :: rest2 =>
        match acc with
        | [] => .error ()
        | prev :: _ =>
          if prev.isFname && nxt.has_text then
            match makeRange nxt rel with
            | some rn => gtltLoopF fuel rest2 (rn :: acc)
            | none => .error ()
          else gtltLoopF fuel (nxt :: rest2) acc
    | _ => gtltLoopF fuel rest (n :: acc)

/-- The scan over the children; each step consumes at least one input node,
so the input length bounds the recursion depth and the fuel-exhausted case
is unreachable. -/
def gtltLoop (l acc : List Node) : Except Unit (List Node) :=
  gtltLoopF (l.length + 1) l acc

/-- `GtLtPlugin.do_gtlt`. -/
def doGtlt (g : Node) : Except Unit Node :=
  match g with
  | .group gt ch f b => (gtltLoop ch []).map (fun l => Node.group gt l f b)
  | n => .ok n

mutual

/-- The in-order non-group leaves of a tree (each group contributes the
leaves of its children). -/
def flatN : Node → List Node
  | .group _ ch _ _ => flatL ch
  | n => [n]

/-- The in-order non-group leaves of each node in a list. -/
def flatL : List Node → List Node
  | [] => []
  | n :: rest => flatN n ++ flatL rest

end

/-- The original matched texts of the unknown field markers of a child
list, in order. -/
def unknownOrigs (sch : List String) : List Node → List String
  | [] => []
  | n :: rest =>
    if isUnknownF sch n then origOf n :: unknownOrigs sch rest
    else unknownOrigs sch rest

/-- No unknown field marker is immediately followed by another unknown
field marker. -/
def noAdjU (sch : List String) : List Node → Bool
  | a :: b :: rest => !(isUnknownF sch a && isUnknownF sch b) && noAdjU sch (b :: rest)
  | _ => true

/-- The head of the list, when present, is not an unknown field marker. -/
def headNotU (sch : List String) : List Node → Prop
  | n :: _ => isUnknownF sch n = false
  | [] => True

/-- The texts of the top-level word nodes of a list, in order. -/
def wordTexts : List Node → List String
  | [] => []
  | .word t _ _ :: rest => t :: wordTexts rest
  | _ :: rest => wordTexts rest

/-- Whether the first character list is a prefix of the second. -/
def startsWithL : List Char → List Char → Bool
  | [], _ => true
  | _ :: _, [] => false
  | a :: as, b :: bs => a = b && startsWithL as bs

/-- Whether the first character list occurs contiguously inside the
second. -/
def occursL (needle : List Char) : List Char → Bool
  | [] => startsWithL needle []
  | h :: t => startsWithL needle (h :: t) || occursL needle t

/-- The text of a top-level word node, `none` for any other node. -/
def wordTextOf : Node → Option String
  | .word t _ _ => some t
  | _ => none

/-! ## Supporting lemmas -/

theorem remWsL_noop : ∀ l, noWsList l = true → removeWhitespaceList l = l
  | [], _ => rfl
  | n :: rest, h => by
    rw [noWsList, Bool.and_eq_true] at h
    have ih2 := remWsL_noop rest h.2
    cases n with
    | group gt ch f b =>
        have ih1 := remWsL_noop ch (by simpa [noWsNode] using h.1)
        simp [removeWhitespaceList, removeWhitespace, ih1, ih2]
    | ws => simp [noWsNode] at h
    | word t f b => simp [removeWhitespaceList, Node.is_ws, ih2]
    | fname a b => simp [removeWhitespaceList, Node.is_ws, ih2]
    | boostm a b => simp [removeWhitespaceList, Node.is_ws, ih2]
    | gtlt r => simp [removeWhitespaceList, Node.is_ws, ih2]
    | plus => simp [removeWhitespaceList, Node.is_ws, ih2]
    | minus => simp [removeWhitespaceList, Node.is_ws, ih2]
    | openB => simp [removeWhitespaceList, Node.is_ws, ih2]
    | closeB => simp [removeWhitespaceList, Node.is_ws, ih2]
    | opm a b => simp [removeWhitespaceList, Node.is_ws, ih2]
    | range a b c d e f => simp [removeWhitespaceList, Node.is_ws, ih2]
termination_by l => sizeOf l

theorem remWsL_noWs : ∀ l, noWsList (removeWhitespaceList l) = true
  | [] => rfl
  | n :: rest => by
    have ih2 := remWsL_noWs rest
    cases n with
    | group gt ch f b =>
        have ih1 := remWsL_noWs ch
        simp [removeWhitespaceList, removeWhitespace, noWsList, noWsNode, ih1, ih2]
    | ws => simpa [removeWhitespaceList, Node.is_ws] using ih2
    | word t f b => simp [removeWhitespaceList, Node.is_ws, noWsList, noWsNode, ih2]
    | fname a b => simp [removeWhitespaceList, Node.is_ws, noWsList, noWsNode, ih2]
    | boostm a b => simp [removeWhitespaceList, Node.is_ws, noWsList, noWsNode, ih2]
    | gtlt r => simp [removeWhitespaceList, Node.is_ws, noWsList, noWsNode, ih2]
    | plus => simp [removeWhitespaceList, Node.is_ws, noWsList, noWsNode, ih2]
    | minus => simp [removeWhitespaceList, Node.is_ws, noWsList, noWsNode, ih2]
    | openB => simp [removeWhitespaceList, Node.is_ws, noWsList, noWsNode, ih2]
    | closeB => simp [removeWhitespaceList, Node.is_ws, noWsList, noWsNode, ih2]
    | opm a b => simp [removeWhitespaceList, Node.is_ws, noWsList, noWsNode, ih2]
    | range a b c d e f => simp [removeWhitespaceList, Node.is_ws, noWsList, noWsNode, ih2]
termination_by l => sizeOf l

/-! ## Claim C3 -/

/-- C3: `GtLtPlugin.make_range` maps each relational symbol to exactly the
range bounds the spec gives: for any operand text `t`, the symbol `<`
yields a range node (start none, end `t`, startexcl false, endexcl true);
`>` yields (`t`, none, true, false); `<=` and `=<` yield (none, `t`,
false, false); `>=` and `=>` yield (`t`, none, false, false). -/
theorem C3_make_range_bounds (t : String) (f : Option String) (b : ℚ) :
    makeRange (.word t f b) "<" = some (.range none (some t) false true none 1) ∧
    makeRange (.word t f b) ">" = some (.range (some t) none true false none 1) ∧
    makeRange (.word t f b) "<=" = some (.range none (some t) false false none 1) ∧
    makeRange (.word t f b) "=<" = some (.range none (some t) false false none 1) ∧
    makeRange (.word t f b) ">=" = some (.range (some t) none false false none 1) ∧
    makeRange (.word t f b) "=>" = some (.range (some t) none false false none 1) :=
  ⟨rfl, rfl, rfl, rfl, rfl, rfl⟩

/-! ## Claim C8 -/

/-- C8: `WhitespacePlugin.remove_whitespace` is a no-op on whitespace-free
input: a tree (nested groups included) with no whitespace nodes is returned
unchanged, and consequently applying the filter twice equals applying it
once. -/
theorem C8_remove_whitespace_noop_idem :
    (∀ g, noWsNode g = true → removeWhitespace g = g) ∧
    (∀ g, removeWhitespace (removeWhitespace g) = removeWhitespace g) := by
  constructor
  · intro g hg
    cases g
    case group gt ch f b =>
      have hch : noWsList ch = true := by simpa [noWsNode] using hg
      simp [removeWhitespace, remWsL_noop ch hch]
    all_goals rfl
  · intro g
    cases g
    case group gt ch f b =>
      simp [removeWhitespace, remWsL_noop _ (remWsL_noWs ch)]
    all_goals rfl

/-- Witness for C8 at a concrete whitespace-free tree. -/
theorem C8_witness :
    noWsNode (Node.group .andG [Node.word "a" none 1] none 1) = true ∧
    removeWhitespace (Node.group .andG [Node.word "a" none 1] none 1) =
      Node.group .andG [Node.word "a" none 1] none 1 :=
  ⟨rfl, C8_remove_whitespace_noop_idem.1 _ rfl⟩

/-! ## Claim C10 -/

/-- C10: `FieldsPlugin.do_fieldnames` runs at priority 100, before
whitespace removal at priority 500, so a field-name marker immediately
followed by a whitespace node does not assign its field name to the later
content node (which keeps its absent field name) and is instead demoted to
a literal word node carrying its original matched text. -/
theorem C10_fieldname_before_whitespace (nm o t : String) (bv : ℚ)
    (gt : GType) (f0 : Option String) (b0 : ℚ) :
    doFieldnamesPriority < removeWhitespacePriority ∧
    doFieldnames true ⟨none⟩
        (.group gt [.fname nm o, .ws, .word t none bv] f0 b0) =
      .group gt [.word o none 1, .ws, .word t none bv] f0 b0 :=
  ⟨by decide, rfl⟩

/-! ## Claim C7 -/

/-- C7: the backward scan of `FieldsPlugin.do_fieldnames` assigns a field
marker's name to the following node without overriding an already-set field
name: a non-group node whose field name is already set keeps exactly that
field name in the filter's output even when a field-name marker immediately
precedes it (the marker is still consumed). -/
theorem C7_no_override (nm o f : String) (n : Node) (gt : GType)
    (f0 : Option String) (b0 : ℚ)
    (hng : n.isGroup = false) (hf : n.fieldnameOf = some f) :
    doFieldnames true ⟨none⟩ (.group gt [.fname nm o, n] f0 b0) =
      .group gt [n] f0 b0 := by
  cases n with
  | word t fw bw =>
      cases fw with
      | none => simp [Node.fieldnameOf] at hf
      | some fv => rfl
  | range s e se ee fr br =>
      cases fr with
      | none => simp [Node.fieldnameOf] at hf
      | some fv => rfl
  | group g2 c2 fg bg => simp [Node.isGroup] at hng
  | ws => simp [Node.fieldnameOf] at hf
  | fname a b => simp [Node.fieldnameOf] at hf
  | boostm a b => simp [Node.fieldnameOf] at hf
  | gtlt r => simp [Node.fieldnameOf] at hf
  | plus => simp [Node.fieldnameOf] at hf
  | minus => simp [Node.fieldnameOf] at hf
  | openB => simp [Node.fieldnameOf] at hf
  | closeB => simp [Node.fieldnameOf] at hf
  | opm a b => simp [Node.fieldnameOf] at hf

/-- Witness for C7 at a concrete already-fielded word node. -/
theorem C7_witness :
    (Node.word "b" (some "title") 1).isGroup = false ∧
    (Node.word "b" (some "title") 1).fieldnameOf = some "title" ∧
    doFieldnames true ⟨none⟩
        (.group .andG [.fname "x" "x:", .word "b" (some "title") 1] none 1) =
      .group .andG [.word "b" (some "title") 1] none 1 :=
  ⟨rfl, rfl, C7_no_override "x" "x:" "title" (Node.word "b" (some "title") 1)
    .andG none 1 rfl rfl⟩

/-! ## Claim C5 -/

theorem pmLoop_eq_buckets : ∀ (l r o b : List Node) (sel : PMSel),
    pmLoop l r o b sel =
      (r ++ (pmBucketsSel sel l).1,
       o ++ (pmBucketsSel sel l).2.1,
       b ++ (pmBucketsSel sel l).2.2)
  | [], r, o, b, sel => by simp [pmLoop, pmBucketsSel]
  | .plus :: rest, r, o, b, sel => by
      simp [pmLoop, pmBucketsSel, pmLoop_eq_buckets rest r o b .req]
  | .minus :: rest, r, o, b, sel => by
      simp [pmLoop, pmBucketsSel, pmLoop_eq_buckets rest r o b .ban]
  | .word t f bo :: rest, r, o, b, sel => by
      cases sel <;>
        simp [pmLoop, pmBucketsSel, pmLoop_eq_buckets rest, List.append_assoc]
  | .ws :: rest, r, o, b, sel => by
      cases sel <;>
        simp [pmLoop, pmBucketsSel, pmLoop_eq_buckets rest, List.append_assoc]
  | .fname a c :: rest, r, o, b, sel => by
      cases sel <;>
        simp [pmLoop, pmBucketsSel, pmLoop_eq_buckets rest, List.append_assoc]
  | .boostm a c :: rest, r, o, b, sel => by
      cases sel <;>
        simp [pmLoop, pmBucketsSel, pmLoop_eq_buckets rest, List.append_assoc]
  | .gtlt a :: rest, r, o, b, sel => by
      cases sel <;>
        simp [pmLoop, pmBucketsSel, pmLoop_eq_buckets rest, List.append_assoc]
  | .openB :: rest, r, o, b, sel => by
      cases sel <;>
        simp [pmLoop, pmBucketsSel, pmLoop_eq_buckets rest, List.append_assoc]
  | .closeB :: rest, r, o, b, sel => by
      cases sel <;>
        simp [pmLoop, pmBucketsSel, pmLoop_eq_buckets rest, List.append_assoc]
  | .opm a c :: rest, r, o, b, sel => by
      cases sel <;>
        simp [pmLoop, pmBucketsSel, pmLoop_eq_buckets rest, List.append_assoc]
  | .range a c d e ff bo :: rest, r, o, b, sel => by
      cases sel <;>
        simp [pmLoop, pmBucketsSel, pmLoop_eq_buckets rest, List.append_assoc]
  | .group a c d e :: rest, r, o, b, sel => by
      cases sel <;>
        simp [pmLoop, pmBucketsSel, pmLoop_eq_buckets rest, List.append_assoc]
termination_by l => sizeOf l

/-- C5: `PlusMinusPlugin.do_plusminus` partitions the non-marker nodes of a
flat group into required, optional and banned buckets according to the most
recently seen plus/minus marker (resetting to optional after each consumed
operand), and returns `AndNot(AndMaybe(required, optional), banned)` when
both required and banned are non-empty, `AndMaybe(required, optional)` when
only required is non-empty, `AndNot(optional, banned)` when only banned is
non-empty, and the optional group alone otherwise (`pmShape` spells out the
four cases); in particular the flat input for `"+a b -c"` yields
`AndNot(AndMaybe(And(a), Or(b)), Or(c))`. -/
theorem C5_plusminus_partition :
    (∀ gt ch f b, doPlusminus (.group gt ch f b) =
        pmShape (pmBucketsSel .opt ch).1 (pmBucketsSel .opt ch).2.1
          (pmBucketsSel .opt ch).2.2) ∧
    doPlusminus (.group .orG
        [.plus, .word "a" none 1, .word "b" none 1, .minus, .word "c" none 1]
        none 1) =
      .group .andNotG
        [.group .andMaybeG
          [.group .andG [.word "a" none 1] none 1,
           .group .orG [.word "b" none 1] none 1] none 1,
         .group .orG [.word "c" none 1] none 1] none 1 := by
  constructor
  · intro gt ch f b
    simp [doPlusminus, pmLoop_eq_buckets]
  · rfl

/-! ## Claim C6 -/

theorem flatL_append : ∀ a b : List Node, flatL (a ++ b) = flatL a ++ flatL b
  | [], b => by simp [flatL]
  | n :: rest, b => by
      simp [flatL, flatL_append rest b]

theorem doGroupsLoop_flat (gt : GType) :
    ∀ (l : List Node) (stack : List (List Node)),
      flatL ((doGroupsLoop gt l stack).reverse.flatten) =
        flatL (stack.reverse.flatten) ++
          flatL (l.filter (fun n => !n.isBracket)) := by
  intro l stack
  induction l, stack using doGroupsLoop.induct gt with
  | case1 stack => simp [doGroupsLoop, flatL]
  | case2 rest stack ih =>
      rw [show doGroupsLoop gt (Node.openB :: rest) stack
            = doGroupsLoop gt rest ([] :: stack) from rfl, ih]
      simp [Node.isBracket, flatL_append, flatL]
  | case3 rest top nxt more ih =>
      rw [show doGroupsLoop gt (Node.closeB :: rest) (top :: nxt :: more)
            = doGroupsLoop gt rest ((nxt ++ [Node.group gt top none 1]) :: more) from rfl, ih]
      simp [flatL_append, flatL, flatN, Node.isBracket, List.append_assoc]
  | case4 rest stack hne ih =>
      match stack, hne with
      | [], _ =>
          rw [show doGroupsLoop gt (Node.closeB :: rest) [] = doGroupsLoop gt rest [] from rfl, ih]
          simp [Node.isBracket]
      | [top], _ =>
          rw [show doGroupsLoop gt (Node.closeB :: rest) [top] = doGroupsLoop gt rest [top] from rfl, ih]
          simp [Node.isBracket]
      | top :: nxt :: more, hne => exact (hne top nxt more rfl).elim
  | case5 n rest hno hnc top more ih =>
      rw [show doGroupsLoop gt (n :: rest) (top :: more)
            = doGroupsLoop gt rest ((top ++ [n]) :: more) from ?_, ih]
      · cases n <;>
          simp_all [flatL_append, flatL, flatN, Node.isBracket, List.append_assoc]
      · cases n <;> first
          | rfl
          | exact absurd rfl hno
          | exact absurd rfl hnc
  | case6 n rest hno hnc ih =>
      rw [show doGroupsLoop gt (n :: rest) [] = doGroupsLoop gt rest [[n]] from ?_, ih]
      · cases n <;>
          simp_all [flatL_append, flatL, flatN, Node.isBracket, List.append_assoc]
      · cases n <;> first
          | rfl
          | exact absurd rfl hno
          | exact absurd rfl hnc

/-- C6: `GroupPlugin.do_groups` never fails on unbalanced brackets: it is a
total function, and for every flat input the in-order leaves of the
resulting tree are exactly the non-bracket nodes of the input, in order —
so the contents of every unterminated bracket level end up, in stack order,
under the base top-level group; in particular the tagged sequence for
`"(a AND b"` produces a tree in which `a` and `b` (and the infix marker
between them, still unresolved at this priority) sit under the top-level
group. -/
theorem C6_unbalanced_brackets :
    (∀ gt gt2 ch f b, flatN (doGroups gt (.group gt2 ch f b)) =
        flatL (ch.filter (fun n => !n.isBracket))) ∧
    doGroups .andG (.group .andG [.openB, .word "a" none 1,
        .opm " AND " ⟨.infOp, .andG, true⟩, .word "b" none 1] none 1) =
      .group .andG [.word "a" none 1, .opm " AND " ⟨.infOp, .andG, true⟩,
        .word "b" none 1] none 1 := by
  constructor
  · intro gt gt2 ch f b
    have h := doGroupsLoop_flat gt ch [[]]
    simp only [List.reverse_cons, List.reverse_nil, List.nil_append,
      List.flatten, flatL, List.append_nil, List.nil_append] at h
    simp only [doGroups]
    split
    · next gt3 ch2 f2 b2 heq =>
        rw [heq] at h
        simp only [flatL, flatN, List.append_nil] at h
        simpa [flatN] using h
    · next heq =>
        simpa [flatN] using h
  · rfl

/-! ## Claim C2 -/

theorem doBoostList_apply :
    ∀ (xs acc : List Node) (n : Node) (o : String) (v : ℚ),
      xs.all (fun x => !x.isGroup && !x.isBoostm) = true →
      n.has_boost = true → n.isGroup = false →
      doBoostList acc (xs ++ [n, .boostm o v]) =
        acc.reverse ++ (xs ++ [n.set_boost v])
  | [], acc, n, o, v, hxs, hn, hng => by
      cases n <;>
        simp_all [doBoostList, Node.has_boost, Node.isGroup, Node.set_boost]
  | x :: xs2, acc, n, o, v, hxs, hn, hng => by
      simp only [List.all_cons, Bool.and_eq_true] at hxs
      have ih := doBoostList_apply xs2 (x :: acc) n o v hxs.2 hn hng
      cases x <;>
        simp_all [doBoostList, Node.isGroup, Node.isBoostm]

/-- C2: the boost "apply" pass `BoostPlugin.do_boost` is registered at
priority 700, after operator resolution at 600; a boost marker immediately
following a node with boost capability causes that node's boost to be
multiplied by the marker's value and the marker to be discarded: a
preceding node carrying boost `b` and a marker carrying value `v` leave the
node with boost `b * v` (`set_boost` multiplies, so `boostOf` of the result
is `boostOf` of the input times `v`). The nodes before the boosted node may
be arbitrary as long as they are not themselves groups or boost markers
(which the pass would also rewrite). -/
theorem C2_boost_apply (xs : List Node) (n : Node) (o : String) (v : ℚ)
    (gt : GType) (f : Option String) (b : ℚ)
    (hxs : xs.all (fun x => !x.isGroup && !x.isBoostm) = true)
    (hn : n.has_boost = true) (hng : n.isGroup = false) :
    doOperatorsPriority < doBoostPriority ∧
    doBoost (.group gt (xs ++ [n, .boostm o v]) f b) =
      .group gt (xs ++ [n.set_boost v]) f b ∧
    (n.set_boost v).boostOf = n.boostOf * v := by
  refine ⟨by decide, ?_, ?_⟩
  · rw [doBoost]
    rw [doBoostList_apply xs [] n o v hxs hn hng]
    simp
  · cases n <;>
      simp_all [Node.has_boost, Node.isGroup, Node.set_boost, Node.boostOf]

/-- Witness for C2: a word with boost 2 followed by a boost marker of value
3 comes out with boost 6. -/
theorem C2_witness :
    doBoost (.group .andG
        [.word "x" none 1, .word "a" none 2, .boostm "^3" 3] none 1) =
      .group .andG [.word "x" none 1, .word "a" none 6] none 1 := by
  have h := (C2_boost_apply [.word "x" none 1] (.word "a" none 2) "^3" 3
    .andG none 1 rfl rfl rfl).2.1
  simpa [Node.set_boost, show (2 : ℚ) * 3 = 6 by norm_num] using h

/-! ## Claim C9 -/

theorem makeRange_not_gtlt (nd : Node) (rel : String) (rn : Node)
    (h : makeRange nd rel = some rn) : rn.isGtlt = false := by
  unfold makeRange at h
  split_ifs at h
  all_goals simp only [Option.some.injEq] at h
  all_goals subst h
  all_goals rfl

theorem gtltLoopF_no_gtlt :
    ∀ (fuel : Nat) (l acc : List Node),
      acc.all (fun n => !n.isGtlt) = true →
      ∀ out, gtltLoopF fuel l acc = .ok out →
        out.all (fun n => !n.isGtlt) = true := by
  intro fuel l acc
  induction fuel, l, acc using gtltLoopF.induct with
  | case1 l acc =>
      intro hacc out hout
      exact absurd hout (by simp [gtltLoopF])
  | case2 fuel acc =>
      intro hacc out hout
      rw [show gtltLoopF (fuel + 1) [] acc = .ok acc.reverse from rfl] at hout
      injection hout with h2
      subst h2
      simpa [List.all_eq_true, List.mem_reverse] using hacc
  | case3 fuel acc rel ih =>
      intro hacc out hout
      rw [show gtltLoopF (fuel + 1) [Node.gtlt rel] acc = gtltLoopF fuel [] acc from rfl] at hout
      exact ih hacc out hout
  | case4 fuel rel n rest =>
      intro hacc out hout
      rw [show gtltLoopF (fuel + 1) (Node.gtlt rel :: n :: rest) [] = .error () from rfl] at hout
      exact absurd hout (by simp)
  | case5 fuel rel n rest prev accT hcond rn hmr ih =>
      intro hacc out hout
      rw [show gtltLoopF (fuel + 1) (Node.gtlt rel :: n :: rest) (prev :: accT)
            = gtltLoopF fuel rest (rn :: prev :: accT) by
          rw [show gtltLoopF (fuel + 1) (Node.gtlt rel :: n :: rest) (prev :: accT)
                = if prev.isFname && n.has_text then
                    (match makeRange n rel with
                      | some rn2 => gtltLoopF fuel rest (rn2 :: prev :: accT)
                      | none => .error ())
                  else gtltLoopF fuel (n :: rest) (prev :: accT) from rfl]
          rw [if_pos hcond, hmr]] at hout
      refine ih ?_ out hout
      simpa [makeRange_not_gtlt n rel rn hmr] using hacc
  | case6 fuel rel n rest prev accT hcond hmr =>
      intro hacc out hout
      rw [show gtltLoopF (fuel + 1) (Node.gtlt rel :: n :: rest) (prev :: accT)
            = if prev.isFname && n.has_text then
                (match makeRange n rel with
                  | some rn2 => gtltLoopF fuel rest (rn2 :: prev :: accT)
                  | none => .error ())
              else gtltLoopF fuel (n :: rest) (prev :: accT) from rfl,
          if_pos hcond, hmr] at hout
      exact absurd hout (by simp)
  | case7 fuel rel n rest prev accT hcond ih =>
      intro hacc out hout
      rw [show gtltLoopF (fuel + 1) (Node.gtlt rel :: n :: rest) (prev :: accT)
            = if prev.isFname && n.has_text then
                (match makeRange n rel with
                  | some rn2 => gtltLoopF fuel rest (rn2 :: prev :: accT)
                  | none => .error ())
              else gtltLoopF fuel (n :: rest) (prev :: accT) from rfl,
          if_neg hcond] at hout
      exact ih hacc out hout
  | case8 fuel t restRev acc hng ih =>
      intro hacc out hout
      rw [show gtltLoopF (fuel + 1) (t :: restRev) acc = gtltLoopF fuel restRev (t :: acc) by
          cases t <;> first | rfl | exact absurd rfl (fun h => hng _ h)] at hout
      refine ih ?_ out hout
      have ht : t.isGtlt = false := by
        cases t <;> first | rfl | exact (hng _ rfl).elim
      simp [List.all_cons, ht, hacc]

/-- C9 counterexample: a comparison marker that is not the last node and is
encountered before anything has been emitted is not silently dropped — the
filter reads `newgroup[-1]` from the empty output and raises `IndexError`
(modelled as `Except.error`). -/
theorem C9_counterexample :
    doGtlt (.group .andG [.gtlt "<", .word "x" none 1] none 1) = .error () := rfl

/-- C9 (amended): whenever `GtLtPlugin.do_gtlt` returns normally, its
output's top-level children contain no comparison-operator marker: a marker
whose previously emitted node is a field marker and whose following node
carries text fuses with that node into the `make_range` result, and every
other comparison marker is silently dropped — except that a marker that is
not the last node of the group and is reached while nothing has yet been
emitted makes the filter raise `IndexError` (it reads `newgroup[-1]` of an
empty list) instead of dropping the marker; nested groups are not descended
into. -/
theorem C9_no_marker_when_ok :
    (∀ gt ch f b out, doGtlt (.group gt ch f b) = .ok out →
        out.children.all (fun n => !n.isGtlt) = true) ∧
    (∀ nm o t bv gt f0 b0,
        doGtlt (.group gt [.fname nm o, .gtlt "<", .word t none bv] f0 b0) =
          .ok (.group gt
            [.fname nm o, .range none (some t) false true none 1] f0 b0)) := by
  constructor
  · intro gt ch f b out hout
    rw [doGtlt] at hout
    cases hl : gtltLoop ch [] with
    | error e => rw [hl] at hout; exact absurd hout (by simp [Except.map])
    | ok l =>
        rw [hl] at hout
        simp only [Except.map] at hout
        injection hout with h2
        subst h2
        simpa [Node.children] using gtltLoopF_no_gtlt (ch.length + 1) ch [] rfl l hl
  · intro nm o t bv gt f0 b0
    rfl

/-- Witness for C9\'s amended theorem at a marker-free input group. -/
theorem C9_witness :
    (Node.group .andG [Node.word "x" none 1] none 1).children.all
      (fun n => !n.isGtlt) = true :=
  C9_no_marker_when_ok.1 .andG [Node.word "x" none 1] none 1
    (Node.group .andG [Node.word "x" none 1] none 1) rfl

/-! ## Claim C1 -/

/-- C1: under the default configuration, `do_operators` iterates the
operator kinds in their registration order Not, And, Or, AndNot, AndMaybe,
Require (the order of `defaultOps`, spelled out in the first conjunct), so
an earlier-registered operator binds tighter; in particular the flat group
for `"a OR b AND c"` resolves to `Or(a, And(b, c))` (as the single child of
the top-level group the filter was handed). -/
theorem C1_operator_precedence :
    (defaultOps.map (fun p => (p.1.optype, p.1.gtype)) =
      [(OpType.preOp, GType.notG), (OpType.infOp, GType.andG),
       (OpType.infOp, GType.orG), (OpType.infOp, GType.andNotG),
       (OpType.infOp, GType.andMaybeG), (OpType.infOp, GType.requireG)]) ∧
    doOperators defaultOps
        (.group .andG [.word "a" none 1, .opm " OR " ⟨.infOp, .orG, true⟩,
          .word "b" none 1, .opm " AND " ⟨.infOp, .andG, true⟩,
          .word "c" none 1] none 1) =
      .group .andG
        [.group .orG [.word "a" none 1,
          .group .andG [.word "b" none 1, .word "c" none 1] none 1] none 1]
        none 1 :=
  ⟨rfl, rfl⟩

/-! ## Claim C4 -/

theorem startsWithL_append : ∀ a b : List Char, startsWithL a (a ++ b) = true
  | [], b => rfl
  | c :: cs, b => by simp [startsWithL, startsWithL_append cs b]

theorem startsWithL_self (a : List Char) : startsWithL a a = true := by
  simpa using startsWithL_append a []

theorem wordTexts_cons (n : Node) (rest : List Node) (s : String)
    (h : s ∈ wordTexts rest) : s ∈ wordTexts (n :: rest) := by
  cases n <;> simp [wordTexts, h]

theorem noAdjU_tail (sch : List String) (n : Node) (rest : List Node)
    (h : noAdjU sch (n :: rest) = true) : noAdjU sch rest = true := by
  cases rest with
  | nil => rfl
  | cons b r =>
      rw [noAdjU, Bool.and_eq_true] at h
      exact h.2

theorem noAdjU_head2 (sch : List String) (n : Node) (rest : List Node)
    (h : noAdjU sch (n :: rest) = true) (hu : isUnknownF sch n = true) :
    headNotU sch rest := by
  cases rest with
  | nil => trivial
  | cons b r =>
      rw [noAdjU, Bool.and_eq_true] at h
      have := h.1
      rw [Bool.not_eq_eq_eq_not, Bool.not_true, Bool.and_eq_false_iff] at this
      rcases this with h1 | h2
      · exact absurd hu (by simp [h1])
      · exact h2

theorem has_text_word (n : Node) (h : n.has_text = true) :
    ∃ tn fn bn, n = Node.word tn fn bn := by
  cases n <;> first
    | exact ⟨_, _, _, rfl⟩
    | simp [Node.has_text] at h

theorem fieldsPhase1_keeps (sch : List String) :
    ∀ (l : List Node) (txt : String),
      noAdjU sch l = true →
      (txt = "" ∨ headNotU sch l) →
      ((txt ≠ "" → ∃ s ∈ wordTexts (fieldsPhase1 sch l txt),
          startsWithL txt.data s.data = true) ∧
       (∀ o ∈ unknownOrigs sch l, o ≠ "" →
          ∃ s ∈ wordTexts (fieldsPhase1 sch l txt),
            startsWithL o.data s.data = true)) := by
  intro l
  induction l with
  | nil =>
      intro txt hadj hhd
      refine ⟨fun htxt => ?_, fun o ho => by simp [unknownOrigs] at ho⟩
      rw [show fieldsPhase1 sch [] txt =
            if txt = "" then [] else [Node.word txt none 1] from rfl, if_neg htxt]
      exact ⟨txt, by simp [wordTexts], startsWithL_self txt.data⟩
  | cons n rest ih =>
      intro txt hadj hhd
      have hstep : fieldsPhase1 sch (n :: rest) txt =
          if isUnknownF sch n then fieldsPhase1 sch rest (origOf n)
          else if txt = "" then n :: fieldsPhase1 sch rest ""
          else if n.has_text then setTextPre txt n :: fieldsPhase1 sch rest ""
          else Node.word txt none 1 :: n :: fieldsPhase1 sch rest "" := rfl
      have horigs : unknownOrigs sch (n :: rest) =
          if isUnknownF sch n then origOf n :: unknownOrigs sch rest
          else unknownOrigs sch rest := rfl
      by_cases hu : isUnknownF sch n = true
      · have htxt : txt = "" := by
          rcases hhd with h | h
          · exact h
          · have h2 : isUnknownF sch n = false := h
            rw [h2] at hu
            exact absurd hu (by simp)
        subst htxt
        have hstep2 : fieldsPhase1 sch (n :: rest) "" =
            fieldsPhase1 sch rest (origOf n) := by
          rw [hstep, if_pos hu]
        have horigs2 : unknownOrigs sch (n :: rest) =
            origOf n :: unknownOrigs sch rest := by
          rw [horigs, if_pos hu]
        rw [hstep2, horigs2]
        have hih := ih (origOf n) (noAdjU_tail sch n rest hadj)
          (Or.inr (noAdjU_head2 sch n rest hadj hu))
        refine ⟨fun h => absurd rfl h, ?_⟩
        intro o ho hne
        rcases List.mem_cons.mp ho with heq | hmem
        · subst heq
          exact hih.1 hne
        · exact hih.2 o hmem hne
      · rw [Bool.not_eq_true] at hu
        have horigs2 : unknownOrigs sch (n :: rest) = unknownOrigs sch rest := by
          rw [horigs, if_neg (by simp [hu])]
        rw [horigs2]
        by_cases htxt : txt = ""
        · subst htxt
          have hstep2 : fieldsPhase1 sch (n :: rest) "" =
              n :: fieldsPhase1 sch rest "" := by
            rw [hstep, if_neg (by simp [hu]), if_pos rfl]
          rw [hstep2]
          have hih := ih "" (noAdjU_tail sch n rest hadj) (Or.inl rfl)
          refine ⟨fun h => absurd rfl h, ?_⟩
          intro o ho hne
          obtain ⟨s, hs, hp⟩ := hih.2 o ho hne
          exact ⟨s, wordTexts_cons n _ s hs, hp⟩
        · have hih := ih "" (noAdjU_tail sch n rest hadj) (Or.inl rfl)
          by_cases hht : n.has_text = true
          · have hstep2 : fieldsPhase1 sch (n :: rest) txt =
                setTextPre txt n :: fieldsPhase1 sch rest "" := by
              rw [hstep, if_neg (by simp [hu]), if_neg htxt, if_pos hht]
            rw [hstep2]
            obtain ⟨tn, fn, bn, rfl⟩ := has_text_word n hht
            refine ⟨fun _ => ⟨txt ++ tn, by simp [setTextPre, wordTexts], ?_⟩, ?_⟩
            · rw [show (txt ++ tn).data = txt.data ++ tn.data from rfl]
              exact startsWithL_append txt.data tn.data
            · intro o ho hne
              obtain ⟨s, hs, hp⟩ := hih.2 o ho hne
              exact ⟨s, by simp [setTextPre, wordTexts, hs], hp⟩
          · have hstep2 : fieldsPhase1 sch (n :: rest) txt =
                Node.word txt none 1 :: n :: fieldsPhase1 sch rest "" := by
              rw [hstep, if_neg (by simp [hu]), if_neg htxt, if_neg hht]
            rw [hstep2]
            refine ⟨fun _ => ⟨txt, by simp [wordTexts], startsWithL_self txt.data⟩, ?_⟩
            intro o ho hne
            obtain ⟨s, hs, hp⟩ := hih.2 o ho hne
            exact ⟨s, wordTexts_cons _ _ s (wordTexts_cons n _ s hs), hp⟩

theorem wordTexts_demote_cons (n : Node) (l out : List Node) (s : String)
    (h : s ∈ wordTexts (n :: l))
    (hl : ∀ s2, s2 ∈ wordTexts l → s2 ∈ wordTexts out) :
    s ∈ wordTexts (fieldsDemote n :: out) := by
  cases n
  case word t f b =>
    rcases List.mem_cons.mp (by simpa [wordTexts] using h) with heq | hmem
    · subst heq
      simp [fieldsDemote, wordTexts]
    · exact wordTexts_cons _ _ s (hl s hmem)
  all_goals
    exact wordTexts_cons _ _ s (hl s (by simpa [wordTexts] using h))

theorem wordTexts_demote_set_cons (n : Node) (nm : String) (l out : List Node)
    (s : String) (h : s ∈ wordTexts (n :: l))
    (hl : ∀ s2, s2 ∈ wordTexts l → s2 ∈ wordTexts out) :
    s ∈ wordTexts ((fieldsDemote n).set_fieldname nm false :: out) := by
  cases n
  case word t f b =>
    rcases List.mem_cons.mp (by simpa [wordTexts] using h) with heq | hmem
    · subst heq
      simp [fieldsDemote, Node.set_fieldname, wordTexts]
    · exact wordTexts_cons _ _ s (hl s hmem)
  all_goals
    exact wordTexts_cons _ _ s (hl s (by simpa [wordTexts] using h))

theorem wordTexts_phase2Rev : ∀ (l : List Node) (s : String),
    s ∈ wordTexts l → s ∈ wordTexts (fieldsPhase2Rev l)
  | [], s, h => by simp [wordTexts] at h
  | n :: .fname nm o :: rest2, s, h => by
      rw [show fieldsPhase2Rev (n :: .fname nm o :: rest2) =
            if (fieldsDemote n).is_ws then
              fieldsDemote n :: fieldsPhase2Rev (.fname nm o :: rest2)
            else (fieldsDemote n).set_fieldname nm false :: fieldsPhase2Rev rest2
          from rfl]
      by_cases hws : (fieldsDemote n).is_ws = true
      · rw [if_pos hws]
        exact wordTexts_demote_cons n (.fname nm o :: rest2) _ s h
          (fun s2 hs2 => wordTexts_phase2Rev (.fname nm o :: rest2) s2 hs2)
      · rw [if_neg hws]
        exact wordTexts_demote_set_cons n nm (.fname nm o :: rest2) _ s h
          (fun s2 hs2 => wordTexts_phase2Rev rest2 s2 (by simpa [wordTexts] using hs2))
  | [n], s, h => by
      rw [show fieldsPhase2Rev [n] = [fieldsDemote n] from rfl]
      exact wordTexts_demote_cons n [] [] s h (fun s2 hs2 => by simp [wordTexts] at hs2)
  | n :: Node.word a2 b2 c2 :: rest2, s, h => by
      rw [show fieldsPhase2Rev (n :: Node.word a2 b2 c2 :: rest2) =
            fieldsDemote n :: fieldsPhase2Rev (Node.word a2 b2 c2 :: rest2) from rfl]
      exact wordTexts_demote_cons n _ _ s h
        (fun s2 hs2 => wordTexts_phase2Rev (Node.word a2 b2 c2 :: rest2) s2 hs2)
  | n :: Node.ws :: rest2, s, h => by
      rw [show fieldsPhase2Rev (n :: Node.ws :: rest2) =
            fieldsDemote n :: fieldsPhase2Rev (Node.ws :: rest2) from rfl]
      exact wordTexts_demote_cons n _ _ s h
        (fun s2 hs2 => wordTexts_phase2Rev (Node.ws :: rest2) s2 hs2)
  | n :: Node.boostm a2 b2 :: rest2, s, h => by
      rw [show fieldsPhase2Rev (n :: Node.boostm a2 b2 :: rest2) =
            fieldsDemote n :: fieldsPhase2Rev (Node.boostm a2 b2 :: rest2) from rfl]
      exact wordTexts_demote_cons n _ _ s h
        (fun s2 hs2 => wordTexts_phase2Rev (Node.boostm a2 b2 :: rest2) s2 hs2)
  | n :: Node.gtlt a2 :: rest2, s, h => by
      rw [show fieldsPhase2Rev (n :: Node.gtlt a2 :: rest2) =
            fieldsDemote n :: fieldsPhase2Rev (Node.gtlt a2 :: rest2) from rfl]
      exact wordTexts_demote_cons n _ _ s h
        (fun s2 hs2 => wordTexts_phase2Rev (Node.gtlt a2 :: rest2) s2 hs2)
  | n :: Node.plus :: rest2, s, h => by
      rw [show fieldsPhase2Rev (n :: Node.plus :: rest2) =
            fieldsDemote n :: fieldsPhase2Rev (Node.plus :: rest2) from rfl]
      exact wordTexts_demote_cons n _ _ s h
        (fun s2 hs2 => wordTexts_phase2Rev (Node.plus :: rest2) s2 hs2)
  | n :: Node.minus :: rest2, s, h => by
      rw [show fieldsPhase2Rev (n :: Node.minus :: rest2) =
            fieldsDemote n :: fieldsPhase2Rev (Node.minus :: rest2) from rfl]
      exact wordTexts_demote_cons n _ _ s h
        (fun s2 hs2 => wordTexts_phase2Rev (Node.minus :: rest2) s2 hs2)
  | n :: Node.openB :: rest2, s, h => by
      rw [show fieldsPhase2Rev (n :: Node.openB :: rest2) =
            fieldsDemote n :: fieldsPhase2Rev (Node.openB :: rest2) from rfl]
      exact wordTexts_demote_cons n _ _ s h
        (fun s2 hs2 => wordTexts_phase2Rev (Node.openB :: rest2) s2 hs2)
  | n :: Node.closeB :: rest2, s, h => by
      rw [show fieldsPhase2Rev (n :: Node.closeB :: rest2) =
            fieldsDemote n :: fieldsPhase2Rev (Node.closeB :: rest2) from rfl]
      exact wordTexts_demote_cons n _ _ s h
        (fun s2 hs2 => wordTexts_phase2Rev (Node.closeB :: rest2) s2 hs2)
  | n :: Node.opm a2 b2 :: rest2, s, h => by
      rw [show fieldsPhase2Rev (n :: Node.opm a2 b2 :: rest2) =
            fieldsDemote n :: fieldsPhase2Rev (Node.opm a2 b2 :: rest2) from rfl]
      exact wordTexts_demote_cons n _ _ s h
        (fun s2 hs2 => wordTexts_phase2Rev (Node.opm a2 b2 :: rest2) s2 hs2)
  | n :: Node.range a2 b2 c2 d2 e2 f2 :: rest2, s, h => by
      rw [show fieldsPhase2Rev (n :: Node.range a2 b2 c2 d2 e2 f2 :: rest2) =
            fieldsDemote n :: fieldsPhase2Rev (Node.range a2 b2 c2 d2 e2 f2 :: rest2) from rfl]
      exact wordTexts_demote_cons n _ _ s h
        (fun s2 hs2 => wordTexts_phase2Rev (Node.range a2 b2 c2 d2 e2 f2 :: rest2) s2 hs2)
  | n :: Node.group a2 b2 c2 d2 :: rest2, s, h => by
      rw [show fieldsPhase2Rev (n :: Node.group a2 b2 c2 d2 :: rest2) =
            fieldsDemote n :: fieldsPhase2Rev (Node.group a2 b2 c2 d2 :: rest2) from rfl]
      exact wordTexts_demote_cons n _ _ s h
        (fun s2 hs2 => wordTexts_phase2Rev (Node.group a2 b2 c2 d2 :: rest2) s2 hs2)

theorem wordTexts_eq_filterMap : ∀ l, wordTexts l = l.filterMap wordTextOf
  | [] => rfl
  | n :: rest => by
      cases n <;>
        simp [wordTexts, wordTextOf, List.filterMap_cons, wordTexts_eq_filterMap rest]

theorem wordTexts_mem_reverse (l : List Node) (s : String) :
    s ∈ wordTexts l.reverse ↔ s ∈ wordTexts l := by
  simp [wordTexts_eq_filterMap, List.mem_filterMap, List.mem_reverse]

theorem wordTexts_phase2 (l : List Node) (s : String) (h : s ∈ wordTexts l) :
    s ∈ wordTexts (fieldsPhase2 l) := by
  have h1 : s ∈ wordTexts l.reverse := (wordTexts_mem_reverse l s).mpr h
  have h2 := wordTexts_phase2Rev l.reverse s h1
  have h3 : s ∈ wordTexts (fieldsPhase2Rev l.reverse).reverse :=
    (wordTexts_mem_reverse _ s).mpr h2
  simpa [fieldsPhase2] using h3

theorem dfnList_cons_spec (rn : Bool) (p : Parser) (n : Node) (rest : List Node) :
    ∃ m, dfnList rn p (n :: rest) = m :: dfnList rn p rest ∧
      (∀ sch, isUnknownF sch m = isUnknownF sch n) ∧ origOf m = origOf n := by
  cases n
  case group gt ch f b =>
    exact ⟨doFieldnames rn p (.group gt ch f b), rfl, fun sch => rfl, rfl⟩
  all_goals
    exact ⟨_, rfl, fun sch => rfl, rfl⟩

theorem unknownOrigs_dfnList (sch : List String) (rn : Bool) (p : Parser) :
    ∀ l, unknownOrigs sch (dfnList rn p l) = unknownOrigs sch l
  | [] => rfl
  | n :: rest => by
      obtain ⟨m, hm, hiso, horig⟩ := dfnList_cons_spec rn p n rest
      rw [hm,
          show unknownOrigs sch (m :: dfnList rn p rest) =
            if isUnknownF sch m then origOf m :: unknownOrigs sch (dfnList rn p rest)
            else unknownOrigs sch (dfnList rn p rest) from rfl,
          show unknownOrigs sch (n :: rest) =
            if isUnknownF sch n then origOf n :: unknownOrigs sch rest
            else unknownOrigs sch rest from rfl,
          hiso sch, horig, unknownOrigs_dfnList sch rn p rest]

theorem noAdjU_dfnList (sch : List String) (rn : Bool) (p : Parser) :
    ∀ l, noAdjU sch (dfnList rn p l) = noAdjU sch l
  | [] => rfl
  | [a] => by
      obtain ⟨m, hm, _, _⟩ := dfnList_cons_spec rn p a []
      rw [show dfnList rn p [a] = dfnList rn p (a :: []) from rfl, hm]
      rfl
  | a :: b :: rest => by
      obtain ⟨m, hm, hiso, _⟩ := dfnList_cons_spec rn p a (b :: rest)
      obtain ⟨m2, hm2, hiso2, _⟩ := dfnList_cons_spec rn p b rest
      have ih := noAdjU_dfnList sch rn p (b :: rest)
      rw [hm2] at ih
      rw [hm, hm2,
          show noAdjU sch (m :: m2 :: dfnList rn p rest) =
            (!(isUnknownF sch m && isUnknownF sch m2) &&
              noAdjU sch (m2 :: dfnList rn p rest)) from rfl,
          show noAdjU sch (a :: b :: rest) =
            (!(isUnknownF sch a && isUnknownF sch b) && noAdjU sch (b :: rest)) from rfl,
          hiso sch, hiso2 sch, ih]

/-- C4 counterexample: with `remove_unknown` set and schema `["known"]`,
the input holding two immediately adjacent unknown field markers
(`f1:` and `f2:`) followed by the word `x` produces only the single word
`f2:x` — the first marker's original text `f1:` is discarded (the pending
text is overwritten by the second marker before it is ever flushed), so it
appears nowhere in the output, not even as a substring. -/
theorem C4_counterexample :
    doFieldnames true ⟨some ["known"]⟩
        (.group .andG
          [.fname "f1" "f1:", .fname "f2" "f2:", .word "x" none 1] none 1) =
      .group .andG [.word "f2:x" none 1] none 1 ∧
    (wordTexts (Node.children (doFieldnames true ⟨some ["known"]⟩
        (.group .andG
          [.fname "f1" "f1:", .fname "f2" "f2:", .word "x" none 1] none 1)))).all
      (fun s => !(occursL ("f1:".data) s.data)) = true :=
  ⟨rfl, rfl⟩

/-- C4 (amended): when `remove_unknown` is configured and a schema is
present, `do_fieldnames` turns every unknown field marker into literal
text merged with any immediately following plain-text node, so the
marker's original text survives into the output — provided no unknown
field marker is immediately followed by another unknown field marker (in
that case the earlier marker's text is discarded, see the counterexample):
under that proviso every unknown marker's non-empty original text is a
prefix of some top-level word text of the output group. -/
theorem C4_unknown_fields_amended (sch : List String) (ch : List Node)
    (gt : GType) (f : Option String) (b : ℚ)
    (hadj : noAdjU sch ch = true) :
    ∀ o ∈ unknownOrigs sch ch, o ≠ "" →
      ∃ s ∈ wordTexts
          ((doFieldnames true ⟨some sch⟩ (.group gt ch f b)).children),
        startsWithL o.data s.data = true := by
  intro o ho hne
  have hshape : (doFieldnames true ⟨some sch⟩ (.group gt ch f b)).children
      = fieldsPhase2 (fieldsPhase1 sch (dfnList true ⟨some sch⟩ ch) "") := rfl
  rw [hshape]
  have ho2 : o ∈ unknownOrigs sch (dfnList true ⟨some sch⟩ ch) := by
    rw [unknownOrigs_dfnList]
    exact ho
  have hadj2 : noAdjU sch (dfnList true ⟨some sch⟩ ch) = true := by
    rw [noAdjU_dfnList]
    exact hadj
  obtain ⟨s, hs, hpre⟩ :=
    (fieldsPhase1_keeps sch (dfnList true ⟨some sch⟩ ch) "" hadj2 (Or.inl rfl)).2
      o ho2 hne
  exact ⟨s, wordTexts_phase2 _ s hs, hpre⟩

/-- Witness for C4's amended theorem: a single unknown marker followed by a
word; the marker's text `f1:` survives as a prefix of the merged word. -/
theorem C4_witness :
    ∃ s ∈ wordTexts ((doFieldnames true ⟨some ["known"]⟩
        (.group .andG [.fname "f1" "f1:", .word "x" none 1] none 1)).children),
      startsWithL ("f1:".data) s.data = true :=
  C4_unknown_fields_amended ["known"] [.fname "f1" "f1:", .word "x" none 1]
    .andG none 1 rfl "f1:" (by simp [unknownOrigs, isUnknownF, origOf])
    (by decide)

end WQ
